import Mathlib

/-!
Verification of the tornado core against its specification.

Bytes are modelled as `List Nat` (each entry intended to be `< 256`;
hypotheses state this bound where a proof depends on it).  Python
functions that may raise an uncaught exception are modelled with
`Except String`; functions whose exceptions are caught internally, or
that cannot raise, return plain values or `Option`.
-/

set_option maxRecDepth 2000000

set_option linter.unusedVariables false

namespace Tornado

/-- Byte strings: lists of natural numbers, each below 256. -/
abbrev Bytes := List Nat

/-- All entries of a byte string are genuine bytes. -/
def IsBytes (l : Bytes) : Prop := ∀ b ∈ l, b < 256

instance : DecidablePred IsBytes := fun l =>
  inferInstanceAs (Decidable (∀ b ∈ l, b < 256))

/-! ### Python `int()` on byte strings

`int(b)` strips ASCII whitespace, accepts an optional sign, then decimal
digits with single underscores allowed between digits.  It raises
`ValueError` otherwise; we return `none` for that case. -/

/-- ASCII whitespace stripped by Python `int()`. -/
def isPySpace (b : Nat) : Bool :=
  b = 32 || b = 9 || b = 10 || b = 13 || b = 11 || b = 12

/-- Value of an ASCII decimal digit. -/
def digitVal (b : Nat) : Option Nat :=
  if 48 ≤ b ∧ b ≤ 57 then some (b - 48) else none

/-- Digits after the first one, with single underscores permitted between
digits, accumulating the value. -/
def parsePyDigits : Bytes → Nat → Option Nat
  | [], acc => some acc
  | b :: rest, acc =>
    if b = 95 then
      match rest with
      | c :: rest2 =>
        match digitVal c with
        | some d => parsePyDigits rest2 (acc * 10 + d)
        | none => none
      | [] => none
    else
      match digitVal b with
      | some d => parsePyDigits rest (acc * 10 + d)
      | none => none

/-- A nonempty all-digit (with inner underscores) literal. -/
def parsePyNat : Bytes → Option Nat
  | [] => none
  | b :: rest =>
    match digitVal b with
    | some d => parsePyDigits rest d
    | none => none

/-- Model of Python `int()` applied to a byte string: `some n` when the
literal is valid, `none` when `int()` would raise `ValueError`. -/
def pyIntParse (s : Bytes) : Option Int :=
  match ((s.dropWhile isPySpace).reverse.dropWhile isPySpace).reverse with
  | [] => none
  | c :: rest =>
    if c = 43 then (parsePyNat rest).map (fun n => (n : Int))
    else if c = 45 then (parsePyNat rest).map (fun n => -(n : Int))
    else (parsePyNat (c :: rest)).map (fun n => (n : Int))

/-! ### Decimal rendering, `str(n)` for integers -/

/-- Digits of `n` in order, most significant first; empty for `0`.
The first argument is fuel (any value `≥ n` works). -/
def natDecimalAux : Nat → Nat → Bytes
  | 0, _ => []
  | fuel + 1, n =>
    if n = 0 then [] else natDecimalAux fuel (n / 10) ++ [n % 10 + 48]

/-- ASCII decimal rendering of a natural number, Python `str(n)`. -/
def natToDecimal (n : Nat) : Bytes :=
  if n = 0 then [48] else natDecimalAux n n

/-- ASCII decimal rendering of an integer, Python `str(i)`. -/
def intToDecimal (i : Int) : Bytes :=
  if i < 0 then 45 :: natToDecimal i.natAbs else natToDecimal i.natAbs

/-! ### Base64 (`base64.b64encode` / `base64.b64decode`) -/

/-- The base64 character for a 6-bit index. -/
def b64char (n : Nat) : Nat :=
  if n < 26 then 65 + n
  else if n < 52 then 97 + (n - 26)
  else if n < 62 then 48 + (n - 52)
  else if n = 62 then 43
  else 47

/-- Inverse of `b64char`. -/
def b64charDec (c : Nat) : Option Nat :=
  if 65 ≤ c ∧ c ≤ 90 then some (c - 65)
  else if 97 ≤ c ∧ c ≤ 122 then some (c - 97 + 26)
  else if 48 ≤ c ∧ c ≤ 57 then some (c - 48 + 52)
  else if c = 43 then some 62
  else if c = 47 then some 63
  else none

/-- Standard base64 encoding with padding, as `base64.b64encode`. -/
def b64encode : Bytes → Bytes
  | a :: b :: c :: rest =>
    let w := a * 65536 + b * 256 + c
    b64char (w / 262144) :: b64char (w / 4096 % 64) :: b64char (w / 64 % 64) ::
      b64char (w % 64) :: b64encode rest
  | [a, b] =>
    let w := a * 65536 + b * 256
    [b64char (w / 262144), b64char (w / 4096 % 64), b64char (w / 64 % 64), 61]
  | [a] =>
    let w := a * 65536
    [b64char (w / 262144), b64char (w / 4096 % 64), 61, 61]
  | [] => []

/-- Standard base64 decoding, as `base64.b64decode`: `none` when the input
is rejected (bad length, bad character, or interior padding). -/
def b64decode : Bytes → Option Bytes
  | [] => some []
  | c1 :: c2 :: c3 :: c4 :: rest =>
    match b64charDec c1, b64charDec c2 with
    | some v1, some v2 =>
      if c3 = 61 then
        if c4 = 61 ∧ rest = [] then some [(v1 * 262144 + v2 * 4096) / 65536]
        else none
      else
        match b64charDec c3 with
        | some v3 =>
          if c4 = 61 then
            if rest = [] then
              let w := v1 * 262144 + v2 * 4096 + v3 * 64
              some [w / 65536, w / 256 % 256]
            else none
          else
            match b64charDec c4 with
            | some v4 =>
              let w := v1 * 262144 + v2 * 4096 + v3 * 64 + v4
              match b64decode rest with
              | some tail => some (w / 65536 :: w / 256 % 256 :: w % 256 :: tail)
              | none => none
            | none => none
        | none => none
    | _, _ => none
  | _ => none

/-! ### SHA-1 (`hashlib.sha1`) and HMAC (`hmac.new(..., digestmod=sha1)`) -/

/-- Left rotation of a 32-bit word. -/
def rotl (n w : Nat) : Nat :=
  (w % 4294967296) * 2 ^ n % 4294967296 + w % 4294967296 / 2 ^ (32 - n)

/-- Big-endian bytes of a 32-bit word. -/
def wordToBytes (w : Nat) : Bytes :=
  [w / 16777216 % 256, w / 65536 % 256, w / 256 % 256, w % 256]

/-- Big-endian bytes of a 64-bit word. -/
def word64ToBytes (w : Nat) : Bytes :=
  wordToBytes (w / 4294967296 % 4294967296) ++ wordToBytes (w % 4294967296)

/-- SHA-1 message padding: append `0x80`, zeros to 56 mod 64, then the
bit length as a big-endian 64-bit value. -/
def sha1pad (msg : Bytes) : Bytes :=
  msg ++ 128 :: List.replicate ((119 - msg.length % 64) % 64) 0 ++
    word64ToBytes (msg.length * 8)

/-- Big-endian 32-bit words of a block. -/
def bytesToWords : Bytes → List Nat
  | b0 :: b1 :: b2 :: b3 :: rest =>
    (b0 * 16777216 + b1 * 65536 + b2 * 256 + b3) :: bytesToWords rest
  | _ => []

/-- Split into 64-byte blocks; the first argument is fuel. -/
def chunks64 : Nat → Bytes → List Bytes
  | 0, _ => []
  | fuel + 1, l => l.take 64 :: chunks64 fuel (l.drop 64)

/-- Message-schedule extension, working on the reversed word list: the
head is the newest word. -/
def sha1extend : Nat → List Nat → List Nat
  | 0, acc => acc
  | fuel + 1, acc =>
    sha1extend fuel
      (rotl 1 (acc.getD 2 0 ^^^ acc.getD 7 0 ^^^ acc.getD 13 0 ^^^ acc.getD 15 0) :: acc)

/-- The SHA-1 round function for round `t`. -/
def sha1f (t b c d : Nat) : Nat :=
  if t < 20 then b &&& c ||| (b ^^^ 4294967295) &&& d
  else if t < 40 then b ^^^ c ^^^ d
  else if t < 60 then b &&& c ||| b &&& d ||| c &&& d
  else b ^^^ c ^^^ d

/-- The SHA-1 round constant for round `t`. -/
def sha1k (t : Nat) : Nat :=
  if t < 20 then 1518500249
  else if t < 40 then 1859775393
  else if t < 60 then 2400959708
  else 3395469782

/-- Run the 80 compression rounds over the schedule words. -/
def sha1rounds : List Nat → Nat → Nat × Nat × Nat × Nat × Nat → Nat × Nat × Nat × Nat × Nat
  | [], _, st => st
  | w :: ws, t, (a, b, c, d, e) =>
    sha1rounds ws (t + 1)
      ((rotl 5 a + sha1f t b c d + e + sha1k t + w) % 4294967296, a, rotl 30 b, c, d)

/-- Process one 64-byte block into the running hash state. -/
def sha1block (h : Nat × Nat × Nat × Nat × Nat) (block : Bytes) :
    Nat × Nat × Nat × Nat × Nat :=
  let ws := (sha1extend 64 (bytesToWords block).reverse).reverse
  match h, sha1rounds ws 0 h with
  | (h0, h1, h2, h3, h4), (a, b, c, d, e) =>
    ((h0 + a) % 4294967296, (h1 + b) % 4294967296, (h2 + c) % 4294967296,
      (h3 + d) % 4294967296, (h4 + e) % 4294967296)

/-- SHA-1 digest of a byte string, 20 bytes. -/
def sha1 (msg : Bytes) : Bytes :=
  let padded := sha1pad msg
  match (chunks64 (padded.length / 64) padded).foldl sha1block
      (1732584193, 4023233417, 2562383102, 271733878, 3285377520) with
  | (h0, h1, h2, h3, h4) =>
    wordToBytes h0 ++ wordToBytes h1 ++ wordToBytes h2 ++ wordToBytes h3 ++ wordToBytes h4

/-- HMAC key preprocessing: hash a long key, then zero-pad to 64 bytes. -/
def hmacKey (key : Bytes) : Bytes :=
  let k := if 64 < key.length then sha1 key else key
  k ++ List.replicate (64 - k.length) 0

/-- HMAC-SHA1 of `msg` under `key`. -/
def hmacSha1 (key msg : Bytes) : Bytes :=
  let k := hmacKey key
  sha1 (k.map (fun b => b ^^^ 92) ++ sha1 (k.map (fun b => b ^^^ 54) ++ msg))

/-- The ASCII character of a hex nibble. -/
def hexChar (n : Nat) : Nat :=
  if n < 10 then 48 + n else 87 + n

/-- Lower-case hex rendering of a byte string (`.hexdigest()`). -/
def hexBytes (l : Bytes) : Bytes :=
  l.flatMap (fun b => [hexChar (b / 16), hexChar (b % 16)])

/-! ### Signed values, `tornado.web`

The cookie secret is either a single byte string or a dict keyed by
integer key version.  A Python dict is modelled as an association list
with distinct keys, in insertion order. -/

/-- One element of `_CookieSecretTypes`: a plain secret or a version dict. -/
inductive CookieSecret where
  | single (s : Bytes)
  | dict (entries : List (Int × Bytes))

/-- Python dict lookup on the association-list model. -/
def dictGet (entries : List (Int × Bytes)) (k : Int) : Option Bytes :=
  (entries.find? (fun p => p.1 = k)).map (fun p => p.2)

/-- Python `max(d.keys())`: `none` on an empty dict (where Python raises). -/
def maxKey : List (Int × Bytes) → Option Int
  | [] => none
  | (k, _) :: rest => some (rest.foldl (fun m p => max m p.1) k)

/-- The newest signed-value version produced by `create_signed_value`. -/
def DEFAULT_SIGNED_VALUE_VERSION : Nat := 2

/-- The oldest version accepted by default (never consulted by
`decode_signed_value` in this code base; kept for fidelity). -/
def DEFAULT_SIGNED_VALUE_MIN_VERSION : Nat := 1

/-- The pipe separator byte of the signed-value wire format. -/
def pipe : Nat := 124

/-- Python `parts[-1]`: the last element of a part list, `[]` when empty. -/
def lastPart : List Bytes → Bytes
  | [] => []
  | [p] => p
  | _ :: q :: rest => lastPart (q :: rest)

/-- The source `_create_signature_v1`: hex HMAC-SHA1 of the concatenated
parts under the secret.  `hmac.new(k).update(p1)...update(pn)` equals a
single HMAC over the concatenation. -/
def create_signature_v1 (secret : Bytes) (parts : List Bytes) : Bytes :=
  hexBytes (hmacSha1 secret parts.flatten)

/-- The source `create_signed_value`.  `clock` is the integer part of the
supplied clock; `version` defaults to `DEFAULT_SIGNED_VALUE_VERSION` at
the call sites.  `Except.error` marks the `ValueError`/`AssertionError`
raise paths. -/
def create_signed_value (secret : CookieSecret) (name value : Bytes)
    (version : Nat) (clock : Nat) (key_version : Option Int) : Except String Bytes :=
  let timestamp := natToDecimal clock
  let v := b64encode value
  if version = 1 then
    match secret with
    | .dict _ => .error "ValueError: secret_dict cannot be used with version 1"
    | .single s =>
      .ok (List.intercalate [pipe] [v, timestamp, create_signature_v1 s [name, v, timestamp]])
  else if version = 2 then
    match secret with
    | .single s =>
      let signed := List.intercalate [pipe] [v, timestamp, create_signature_v1 s [name, v, timestamp]]
      match key_version with
      | none => .ok signed
      | some k => .ok (List.intercalate [pipe] [signed, intToDecimal k])
    | .dict entries =>
      let kv : Option Int := match key_version with
        | some k => some k
        | none => maxKey entries
      match kv with
      | none => .error "ValueError: max() arg is an empty sequence"
      | some k =>
        match dictGet entries k with
        | none => .error "AssertionError: key_version not in secret"
        | some s =>
          let signed :=
            List.intercalate [pipe] [v, timestamp, create_signature_v1 s [name, v, timestamp]]
          .ok (List.intercalate [pipe] [signed, intToDecimal k])
  else .error "ValueError: Unsupported version"

/-- The source `decode_signed_value`.  Returns `.ok (some v)` on success,
`.ok none` where the source returns `None`, and `.error` where an
exception escapes (the uncaught `int()` calls).  `max_age_days` is an
integer here; the claims only exercise integral ages.  `min_version` is
accepted and defaulted exactly as in the source, which never reads it
again. -/
def decode_signed_value (secret : CookieSecret) (name value : Bytes)
    (max_age_days : Int) (min_version : Option Nat) (clock : Nat) :
    Except String (Option Bytes) :=
  let _min_version := min_version.getD DEFAULT_SIGNED_VALUE_MIN_VERSION
  let parts := value.splitOn pipe
  if parts.length < 3 then .ok none
  else
    let signature := lastPart parts
    match secret with
    | .single s =>
      let expected_sig := create_signature_v1 s [name, parts.getD 0 [], parts.getD 1 []]
      if expected_sig = signature then
        match pyIntParse (parts.getD 1 []) with
        | none => .error "ValueError: invalid literal for int()"
        | some timestamp =>
          if timestamp < (clock : Int) - max_age_days * 86400 then .ok none
          else .ok (b64decode (parts.getD 0 []))
      else .ok none
    | .dict entries =>
      if parts.length < 4 then .ok none
      else
        match pyIntParse signature with
        | none => .error "ValueError: invalid literal for int()"
        | some key_version =>
          match dictGet entries key_version with
          | none => .ok none
          | some s =>
            let expected_sig := create_signature_v1 s [name, parts.getD 0 [], parts.getD 1 []]
            if expected_sig = signature then
              match pyIntParse (parts.getD 1 []) with
              | none => .error "ValueError: invalid literal for int()"
              | some timestamp =>
                if timestamp < (clock : Int) - max_age_days * 86400 then .ok none
                else .ok (b64decode (parts.getD 0 []))
            else .ok none

/-- The source `get_signature_key_version`: the integer fourth field of a
signed value with more than three fields, else `None`; `int()` failures
are caught and yield `None`. -/
def get_signature_key_version (value : Bytes) : Option Int :=
  let parts := value.splitOn pipe
  if parts.length < 3 then none
  else if 3 < parts.length then pyIntParse (parts.getD 3 [])
  else none

/-! ### WebSocket masking and handshake, `tornado.util` / `tornado.websocket` -/

/-- The masking loop of `_websocket_mask_python`, carrying the running
byte index. -/
def websocketMaskFrom (mask : Bytes) : Nat → Bytes → Bytes
  | _, [] => []
  | i, b :: rest => (b ^^^ mask.getD (i % 4) 0) :: websocketMaskFrom mask (i + 1) rest

/-- The source `_websocket_mask_python`: XOR byte `i` of the data with
byte `i mod 4` of the four-byte mask key. -/
def websocket_mask_python (mask data : Bytes) : Bytes :=
  websocketMaskFrom mask 0 data

/-- The RFC 6455 handshake GUID, `258EAFA5-E914-47DA-95CA-C5AB0DC85B11`. -/
def WEBSOCKET_GUID : Bytes :=
  [50, 53, 56, 69, 65, 70, 65, 53, 45, 69, 57, 49, 52, 45, 52, 55, 68, 65, 45,
   57, 53, 67, 65, 45, 67, 53, 65, 66, 48, 68, 67, 56, 53, 66, 49, 49]

/-- Modelled from the spec: `WebSocketProtocol13.compute_accept_value` is a
`pass`-stub in src/tornado/websocket.py; the spec sets
`Sec-WebSocket-Accept = base64(sha1(key concat GUID))`. -/
def compute_accept_value (key : Bytes) : Bytes :=
  b64encode (sha1 (key ++ WEBSOCKET_GUID))

/-! ### HTTPHeaders, `tornado.httputil`

`__setitem__`, `__getitem__` and `__iter__` are implemented in src; the
`_dict`/`_as_list` Python dicts are modelled as insertion-ordered
association lists with distinct keys, matching dict semantics. -/

/-- ASCII lower-casing of one byte. -/
def toLowerByte (b : Nat) : Nat := if 65 ≤ b ∧ b ≤ 90 then b + 32 else b

/-- ASCII upper-casing of one byte. -/
def toUpperByte (b : Nat) : Nat := if 97 ≤ b ∧ b ≤ 122 then b - 32 else b

/-- Python `str.capitalize`: first character upper-cased, rest lower-cased. -/
def capitalizeWord : Bytes → Bytes
  | [] => []
  | c :: rest => toUpperByte c :: rest.map toLowerByte

/-- Modelled from the spec: `_normalize_header` is a `pass`-stub in
src/tornado/httputil.py; the spec and the stub docstring fix
Http-Header-Case, capitalizing each dash-separated word
(`coNtent-TYPE` to `Content-Type`). -/
def normalize_header (name : Bytes) : Bytes :=
  List.intercalate [45] ((name.splitOn 45).map capitalizeWord)

/-- Ordered-dict lookup. -/
def odGet {β : Type} : List (Bytes × β) → Bytes → Option β
  | [], _ => none
  | (k1, v1) :: rest, k => if k1 = k then some v1 else odGet rest k

/-- Ordered-dict update: replace in place when the key is present (dicts
keep the original insertion position), append otherwise. -/
def odSet {β : Type} : List (Bytes × β) → Bytes → β → List (Bytes × β)
  | [], k, v => [(k, v)]
  | (k1, v1) :: rest, k, v =>
    if k1 = k then (k1, v) :: rest else (k1, v1) :: odSet rest k v

/-- The `HTTPHeaders` state: the joined-value dict and the per-occurrence
list dict, both insertion ordered. -/
structure HTTPHeaders where
  joined : List (Bytes × Bytes)
  as_list : List (Bytes × List Bytes)

/-- A fresh `HTTPHeaders`. -/
def HTTPHeaders.empty : HTTPHeaders := ⟨[], []⟩

/-- The source `__setitem__`: store the single value under the normalized
name in both dicts. -/
def HTTPHeaders.setItem (h : HTTPHeaders) (name value : Bytes) : HTTPHeaders :=
  let norm := normalize_header name
  ⟨odSet h.joined norm value, odSet h.as_list norm [value]⟩

/-- The source `__getitem__` (and `MutableMapping.get`): lookup under the
normalized name; `none` models `KeyError`/`None`. -/
def HTTPHeaders.getItem (h : HTTPHeaders) (name : Bytes) : Option Bytes :=
  odGet h.joined (normalize_header name)

/-- Modelled from the spec: `HTTPHeaders.add` is a `pass`-stub in
src/tornado/httputil.py; the spec and the class docstring make `add`
append a new occurrence, joining repeated values with a comma in the
plain-dict view. -/
def HTTPHeaders.add (h : HTTPHeaders) (name value : Bytes) : HTTPHeaders :=
  let norm := normalize_header name
  match odGet h.joined norm with
  | some current =>
    ⟨odSet h.joined norm (current ++ 44 :: value),
     odSet h.as_list norm ((odGet h.as_list norm).getD [] ++ [value])⟩
  | none => ⟨odSet h.joined norm value, odSet h.as_list norm [value]⟩

/-- Modelled from the spec: `HTTPHeaders.get_list` is a `pass`-stub in
src/tornado/httputil.py; the spec returns each stored occurrence for the
name, `[]` when absent. -/
def HTTPHeaders.get_list (h : HTTPHeaders) (name : Bytes) : List Bytes :=
  (odGet h.as_list (normalize_header name)).getD []

/-- Iteration order of the headers (`__iter__` iterates the dict). -/
def HTTPHeaders.names (h : HTTPHeaders) : List Bytes :=
  h.joined.map (fun p => p.1)

/-- Build headers by `add`-ing the pairs in order. -/
def headersOfPairs (ps : List (Bytes × Bytes)) : HTTPHeaders :=
  ps.foldl (fun h p => h.add p.1 p.2) HTTPHeaders.empty

/-- First-occurrence order of a name list: the insertion order of the
corresponding dict keys. -/
def insKeys (names : List Bytes) : List Bytes :=
  names.foldl (fun acc a => if a ∈ acc then acc else acc ++ [a]) []

/-- The values added for canonical name `n`, in insertion order. -/
def valuesFor (ps : List (Bytes × Bytes)) (n : Bytes) : List Bytes :=
  (ps.filter (fun p => normalize_header p.1 = n)).map (fun p => p.2)

/-! ### Body framing, `tornado.http1connection` -/

/-- ASCII bytes of `Transfer-Encoding`. -/
def transferEncodingName : Bytes :=
  [84, 114, 97, 110, 115, 102, 101, 114, 45, 69, 110, 99, 111, 100, 105, 110, 103]

/-- ASCII bytes of `chunked`. -/
def chunkedBytes : Bytes := [99, 104, 117, 110, 107, 101, 100]

/-- Python `str.strip` over the HTTP whitespace characters space and tab. -/
def stripHTTPWhitespace (v : Bytes) : Bytes :=
  ((v.dropWhile (fun b => b = 32 || b = 9)).reverse.dropWhile
    (fun b => b = 32 || b = 9)).reverse

/-- Modelled from the spec: `is_transfer_encoding_chunked` is a `pass`-stub
in src/tornado/http1connection.py; the spec returns true for a
`Transfer-Encoding` of exactly `chunked` (case-insensitively, after
stripping HTTP whitespace), raises `HTTPInputError` for any other
transfer encoding, and returns false when the header is absent. -/
def is_transfer_encoding_chunked (h : HTTPHeaders) : Except String Bool :=
  match h.getItem transferEncodingName with
  | none => .ok false
  | some v =>
    if (stripHTTPWhitespace v).map toLowerByte = chunkedBytes then .ok true
    else .error "HTTPInputError: unsupported Transfer-Encoding"

/-! ### JSON output, `tornado.escape` / `RequestHandler.write` -/

/-- Python values serializable by `json.dumps`, with strings as lists of
code points. -/
inductive PyJson where
  | null : PyJson
  | bool (b : Bool) : PyJson
  | int (i : Int) : PyJson
  | str (s : Bytes) : PyJson
  | arr (xs : List PyJson) : PyJson
  | obj (fields : List (Bytes × PyJson)) : PyJson

/-- Four hex digits of a code unit. -/
def hex4 (n : Nat) : Bytes :=
  [hexChar (n / 4096 % 16), hexChar (n / 256 % 16), hexChar (n / 16 % 16), hexChar (n % 16)]

/-- The `json.dumps` escape of one code point (`ensure_ascii` default). -/
def jsonEscapeChar (c : Nat) : Bytes :=
  if c = 34 then [92, 34]
  else if c = 92 then [92, 92]
  else if c = 8 then [92, 98]
  else if c = 9 then [92, 116]
  else if c = 10 then [92, 110]
  else if c = 12 then [92, 102]
  else if c = 13 then [92, 114]
  else if c < 32 then 92 :: 117 :: hex4 c
  else if c < 127 then [c]
  else if c < 65536 then 92 :: 117 :: hex4 c
  else 92 :: 117 :: hex4 (55296 + (c - 65536) / 1024) ++ 92 :: 117 :: hex4 (56320 + (c - 65536) % 1024)

/-- A JSON string literal. -/
def jsonStr (s : Bytes) : Bytes :=
  34 :: s.flatMap jsonEscapeChar ++ [34]

mutual

/-- Stdlib `json.dumps` with its default separators. -/
def jsonDumps : PyJson → Bytes
  | .null => [110, 117, 108, 108]
  | .bool true => [116, 114, 117, 101]
  | .bool false => [102, 97, 108, 115, 101]
  | .int i => intToDecimal i
  | .str s => jsonStr s
  | .arr xs => 91 :: jsonDumpsList xs ++ [93]
  | .obj fs => 123 :: jsonDumpsFields fs ++ [125]

/-- Array elements joined by `, `. -/
def jsonDumpsList : List PyJson → Bytes
  | [] => []
  | [x] => jsonDumps x
  | x :: y :: rest => jsonDumps x ++ 44 :: 32 :: jsonDumpsList (y :: rest)

/-- Object fields `"key": value` joined by `, `. -/
def jsonDumpsFields : List (Bytes × PyJson) → Bytes
  | [] => []
  | [f] => jsonStr f.1 ++ 58 :: 32 :: jsonDumps f.2
  | f :: g :: rest => jsonStr f.1 ++ 58 :: 32 :: jsonDumps f.2 ++ 44 :: 32 :: jsonDumpsFields (g :: rest)

end

/-- Does `s` start with `pat`? -/
def startsWith : Bytes → Bytes → Bool
  | [], _ => true
  | _ :: _, [] => false
  | p :: ps, c :: cs => p = c && startsWith ps cs

/-- Does `s` contain `pat` as a contiguous run? -/
def containsSeq (pat : Bytes) : Bytes → Bool
  | [] => startsWith pat []
  | c :: rest => startsWith pat (c :: rest) || containsSeq pat rest

/-- Python `str.replace`: scan left to right, replacing non-overlapping
occurrences.  The first argument is fuel, `≥ s.length` at the call. -/
def pyReplaceAux (pat rep : Bytes) : Nat → Bytes → Bytes
  | _, [] => []
  | 0, s => s
  | fuel + 1, c :: rest =>
    if startsWith pat (c :: rest) then
      rep ++ pyReplaceAux pat rep fuel ((c :: rest).drop pat.length)
    else c :: pyReplaceAux pat rep fuel rest

/-- Python `s.replace(pat, rep)` for a nonempty pattern. -/
def pyReplace (s pat rep : Bytes) : Bytes :=
  pyReplaceAux pat rep s.length s

/-- The source `json_encode`: `json.dumps(value).replace("</", "<\\/")`. -/
def json_encode (v : PyJson) : Bytes :=
  pyReplace (jsonDumps v) [60, 47] [60, 92, 47]

/-- The write-relevant part of a `RequestHandler`: the response body
buffer and the response headers. -/
structure ResponseState where
  write_buffer : List Bytes
  headers : HTTPHeaders

/-- The chunk argument of `RequestHandler.write`. -/
inductive WriteChunk where
  | ofStr (s : Bytes) : WriteChunk
  | ofBytes (b : Bytes) : WriteChunk
  | ofDict (d : List (Bytes × PyJson)) : WriteChunk
  | ofList (xs : List PyJson) : WriteChunk

/-- ASCII bytes of `Content-Type`. -/
def contentTypeName : Bytes := [67, 111, 110, 116, 101, 110, 116, 45, 84, 121, 112, 101]

/-- ASCII bytes of `application/json`. -/
def applicationJson : Bytes :=
  [97, 112, 112, 108, 105, 99, 97, 116, 105, 111, 110, 47, 106, 115, 111, 110]

/-- Modelled from the spec: `RequestHandler.write` is a `pass`-stub in
src/tornado/web.py; the spec appends the chunk to the response body
buffer, JSON-serializes dicts with `</` escaped to `<\/` while setting
`Content-Type: application/json`, and refuses raw lists (the
JSON-hijacking guard raises `TypeError`). -/
def RequestHandler.write (st : ResponseState) (chunk : WriteChunk) : Except String ResponseState :=
  match chunk with
  | .ofList _ => .error "TypeError: lists not accepted for security reasons"
  | .ofDict d =>
    .ok ⟨st.write_buffer ++ [json_encode (.obj d)],
         st.headers.setItem contentTypeName applicationJson⟩
  | .ofStr s => .ok ⟨st.write_buffer ++ [s], st.headers⟩
  | .ofBytes b => .ok ⟨st.write_buffer ++ [b], st.headers⟩

/-! ## Helper lemmas -/

theorem xor_xor_self (b m : Nat) : b ^^^ m ^^^ m = b := by
  rw [Nat.xor_assoc, Nat.xor_self, Nat.xor_zero]

theorem websocketMaskFrom_involution (mask : Bytes) :
    ∀ i data, websocketMaskFrom mask i (websocketMaskFrom mask i data) = data := by
  intro i data
  induction data generalizing i with
  | nil => rfl
  | cons b rest ih => simp [websocketMaskFrom, ih, xor_xor_self]

/-! ## C9 -/

/-- C9: for every 4-byte mask key and every byte string, applying the
WebSocket masking function of `_websocket_mask_python` twice with the
same key returns the original data. -/
theorem websocket_mask_involution (mask data : Bytes) (hm : mask.length = 4)
    (hmask : IsBytes mask) (hdata : IsBytes data) :
    websocket_mask_python mask (websocket_mask_python mask data) = data :=
  websocketMaskFrom_involution mask 0 data

/-- Witness for C9 at a concrete mask and payload. -/
theorem websocket_mask_involution_witness :
    ([1, 2, 3, 4] : Bytes).length = 4 ∧ IsBytes [1, 2, 3, 4] ∧ IsBytes [104, 105, 33] ∧
      websocket_mask_python [1, 2, 3, 4] (websocket_mask_python [1, 2, 3, 4] [104, 105, 33]) =
        [104, 105, 33] :=
  ⟨by decide, by decide, by decide,
    websocket_mask_involution [1, 2, 3, 4] [104, 105, 33] (by decide) (by decide) (by decide)⟩

/-! ## C8 -/

/-- C8: the computed `Sec-WebSocket-Accept` value is the base64 of the
SHA-1 of the key concatenated with the RFC 6455 GUID, and on the RFC
sample key `dGhlIHNhbXBsZSBub25jZQ==` it is `s3pPLMBiTxaQ9kYGzzhZRbK+xOo=`. -/
theorem compute_accept_value_spec :
    (∀ key : Bytes, compute_accept_value key = b64encode (sha1 (key ++ WEBSOCKET_GUID))) ∧
      compute_accept_value
          [100, 71, 104, 108, 73, 72, 78, 104, 98, 88, 66, 115, 90, 83, 66, 117, 98, 50,
           53, 106, 90, 81, 61, 61] =
        [115, 51, 112, 80, 76, 77, 66, 105, 84, 120, 97, 81, 57, 107, 89, 71, 122, 122,
         104, 90, 82, 98, 75, 43, 120, 79, 111, 61] :=
  ⟨fun _ => rfl, by rfl⟩

/-! ## Character-class lemmas -/

theorem b64char_ne_pipe (n : Nat) : b64char n ≠ 124 := by
  unfold b64char
  repeat' split
  all_goals omega

theorem b64char_ne_pad (n : Nat) : b64char n ≠ 61 := by
  unfold b64char
  repeat' split
  all_goals omega

theorem b64encode_no_pipe : ∀ l : Bytes, 124 ∉ b64encode l := by
  intro l
  induction l using b64encode.induct with
  | case1 a b c rest ih =>
    simp only [b64encode, List.mem_cons, not_or]
    exact ⟨Ne.symm (b64char_ne_pipe _), Ne.symm (b64char_ne_pipe _),
      Ne.symm (b64char_ne_pipe _), Ne.symm (b64char_ne_pipe _), ih⟩
  | case2 a b =>
    simp only [b64encode, List.mem_cons, not_or]
    refine ⟨Ne.symm (b64char_ne_pipe _), Ne.symm (b64char_ne_pipe _),
      Ne.symm (b64char_ne_pipe _), by omega, by simp⟩
  | case3 a =>
    simp only [b64encode, List.mem_cons, not_or]
    refine ⟨Ne.symm (b64char_ne_pipe _), Ne.symm (b64char_ne_pipe _), by omega, by omega, by simp⟩
  | case4 => simp [b64encode]

theorem natDecimalAux_mem (fuel : Nat) :
    ∀ n c, c ∈ natDecimalAux fuel n → 48 ≤ c ∧ c ≤ 57 := by
  induction fuel with
  | zero => intro n c hc; simp [natDecimalAux] at hc
  | succ fuel ih =>
    intro n c hc
    simp only [natDecimalAux] at hc
    split at hc
    · simp at hc
    · rcases List.mem_append.mp hc with h | h
      · exact ih _ _ h
      · simp at h; omega

theorem natToDecimal_mem (n : Nat) : ∀ c ∈ natToDecimal n, 48 ≤ c ∧ c ≤ 57 := by
  intro c hc
  unfold natToDecimal at hc
  split at hc
  · simp at hc; omega
  · exact natDecimalAux_mem n n c hc

theorem natToDecimal_ne_nil (n : Nat) : natToDecimal n ≠ [] := by
  unfold natToDecimal
  split
  · simp
  · rename_i h
    cases fuel_def : n with
    | zero => exact absurd fuel_def h
    | succ m =>
      simp only [natDecimalAux, fuel_def]
      rw [if_neg (by omega)]
      simp

theorem natToDecimal_no_pipe (n : Nat) : 124 ∉ natToDecimal n := by
  intro h
  have := natToDecimal_mem n 124 h
  omega

theorem intToDecimal_mem (k : Int) : ∀ c ∈ intToDecimal k, c = 45 ∨ (48 ≤ c ∧ c ≤ 57) := by
  intro c hc
  unfold intToDecimal at hc
  split at hc
  · rcases List.mem_cons.mp hc with h | h
    · left; exact h
    · right; exact natToDecimal_mem _ _ h
  · right; exact natToDecimal_mem _ _ hc

theorem intToDecimal_no_pipe (k : Int) : 124 ∉ intToDecimal k := by
  intro h
  rcases intToDecimal_mem k 124 h with h | h <;> omega

theorem hexChar_ne_pipe (n : Nat) (h : n < 16) : hexChar n ≠ 124 := by
  unfold hexChar
  split <;> omega

theorem hexBytes_no_pipe (l : Bytes) (h : IsBytes l) : 124 ∉ hexBytes l := by
  intro hmem
  simp only [hexBytes, List.mem_flatMap] at hmem
  obtain ⟨b, hb, hc⟩ := hmem
  have hblt := h b hb
  simp only [List.mem_cons, List.not_mem_nil] at hc
  rcases hc with hc | hc | hc
  · exact hexChar_ne_pipe (b / 16) (by omega) hc.symm
  · exact hexChar_ne_pipe (b % 16) (by omega) hc.symm
  · exact hc

theorem wordToBytes_isBytes (w : Nat) : IsBytes (wordToBytes w) := by
  intro b hb
  simp only [wordToBytes, List.mem_cons, List.not_mem_nil, or_false] at hb
  rcases hb with h | h | h | h <;> omega

theorem sha1_isBytes (m : Bytes) : IsBytes (sha1 m) := by
  intro b hb
  unfold sha1 at hb
  rcases List.mem_append.mp hb with h | h
  rotate_left
  · exact wordToBytes_isBytes _ b h
  rcases List.mem_append.mp h with h | h
  rotate_left
  · exact wordToBytes_isBytes _ b h
  rcases List.mem_append.mp h with h | h
  rotate_left
  · exact wordToBytes_isBytes _ b h
  rcases List.mem_append.mp h with h | h
  · exact wordToBytes_isBytes _ b h
  · exact wordToBytes_isBytes _ b h

theorem hexBytes_length (l : Bytes) : (hexBytes l).length = 2 * l.length := by
  induction l with
  | nil => rfl
  | cons b rest ih => simp [hexBytes, List.flatMap_cons] at ih ⊢; omega

theorem sha1_length (m : Bytes) : (sha1 m).length = 20 := by
  unfold sha1
  simp [wordToBytes]

theorem create_signature_v1_no_pipe (s : Bytes) (parts : List Bytes) :
    124 ∉ create_signature_v1 s parts :=
  hexBytes_no_pipe _ (sha1_isBytes _)

theorem create_signature_v1_length (s : Bytes) (parts : List Bytes) :
    (create_signature_v1 s parts).length = 40 := by
  unfold create_signature_v1 hmacSha1
  rw [hexBytes_length, sha1_length]

/-! ## Decimal-parse roundtrip -/

theorem dropWhile_eq_self (p : Nat → Bool) (l : List Nat) (h : ∀ c ∈ l, p c = false) :
    l.dropWhile p = l := by
  cases l with
  | nil => rfl
  | cons c rest =>
    rw [List.dropWhile_cons, h c (List.mem_cons_self c rest)]
    simp

theorem isPySpace_digit_false (c : Nat) (h : 48 ≤ c ∧ c ≤ 57) : isPySpace c = false := by
  simp only [isPySpace, Bool.or_eq_false_iff, decide_eq_false_iff_not]
  omega

theorem parsePyDigits_all_digits (l : Bytes) (h : ∀ c ∈ l, 48 ≤ c ∧ c ≤ 57) :
    ∀ acc, parsePyDigits l acc = some (l.foldl (fun a c => a * 10 + (c - 48)) acc) := by
  induction l with
  | nil => intro acc; rfl
  | cons c rest ih =>
    intro acc
    have hc := h c (List.mem_cons_self c rest)
    have hd : digitVal c = some (c - 48) := by rw [digitVal, if_pos hc]
    rw [parsePyDigits.eq_def]
    simp only [if_neg (show ¬c = 95 by omega), hd, List.foldl_cons]
    exact ih (fun x hx => h x (List.mem_cons_of_mem c hx)) (acc * 10 + (c - 48))

theorem natDecimalAux_foldl :
    ∀ fuel n acc, n ≤ fuel →
      (natDecimalAux fuel n).foldl (fun a c => a * 10 + (c - 48)) acc =
        acc * 10 ^ (natDecimalAux fuel n).length + n := by
  intro fuel
  induction fuel with
  | zero => intro n acc h; simp [natDecimalAux]; omega
  | succ fuel ih =>
    intro n acc h
    by_cases hz : n = 0
    · simp [natDecimalAux, hz]
    · rw [natDecimalAux, if_neg hz, List.foldl_append, List.length_append,
        ih (n / 10) acc (by omega)]
      simp only [List.foldl_cons, List.foldl_nil, List.length_cons, List.length_nil]
      have : n % 10 + 48 - 48 = n % 10 := by omega
      rw [this, pow_succ]
      have hn : n / 10 * 10 + n % 10 = n := by omega
      ring_nf
      omega

theorem parsePyNat_natToDecimal (n : Nat) : parsePyNat (natToDecimal n) = some n := by
  by_cases hz : n = 0
  · subst hz; rfl
  · rw [natToDecimal, if_neg hz]
    cases hsh : natDecimalAux n n with
    | nil =>
      exfalso
      have := natToDecimal_ne_nil n
      rw [natToDecimal, if_neg hz, hsh] at this
      exact this rfl
    | cons c rest =>
      have hmem : ∀ x ∈ c :: rest, 48 ≤ x ∧ x ≤ 57 := by
        intro x hx; exact natDecimalAux_mem n n x (hsh ▸ hx)
      have hc := hmem c (List.mem_cons_self c rest)
      have hd : digitVal c = some (c - 48) := by rw [digitVal, if_pos hc]
      simp only [parsePyNat]
      rw [hd]
      show parsePyDigits rest (c - 48) = some n
      rw [parsePyDigits_all_digits rest (fun x hx => hmem x (List.mem_cons_of_mem c hx))]
      have := natDecimalAux_foldl n n 0 (le_refl n)
      rw [hsh, List.foldl_cons] at this
      simp only [Nat.zero_mul, Nat.zero_add] at this
      rw [this]

theorem pyIntParse_of_digits (l : Bytes) (hne : l ≠ []) (h : ∀ c ∈ l, 48 ≤ c ∧ c ≤ 57) :
    pyIntParse l = (parsePyNat l).map (fun n => (n : Int)) := by
  unfold pyIntParse
  rw [dropWhile_eq_self _ _ (fun c hc => isPySpace_digit_false c (h c hc)),
    dropWhile_eq_self _ _ (fun c hc => isPySpace_digit_false c (h c (List.mem_reverse.mp hc))),
    List.reverse_reverse]
  cases l with
  | nil => exact absurd rfl hne
  | cons c rest =>
    have hc := h c (List.mem_cons_self c rest)
    simp only [if_neg (show ¬c = 43 by omega), if_neg (show ¬c = 45 by omega)]

theorem pyIntParse_natToDecimal (n : Nat) : pyIntParse (natToDecimal n) = some (n : Int) := by
  rw [pyIntParse_of_digits _ (natToDecimal_ne_nil n) (natToDecimal_mem n),
    parsePyNat_natToDecimal]
  rfl

theorem pyIntParse_intToDecimal (k : Int) : pyIntParse (intToDecimal k) = some k := by
  by_cases hneg : k < 0
  · rw [intToDecimal, if_pos hneg]
    unfold pyIntParse
    have hmem := natToDecimal_mem k.natAbs
    have hsp : ∀ c ∈ 45 :: natToDecimal k.natAbs, isPySpace c = false := by
      intro c hc
      rcases List.mem_cons.mp hc with h | h
      · subst h; rfl
      · exact isPySpace_digit_false c (hmem c h)
    rw [dropWhile_eq_self _ _ hsp,
      dropWhile_eq_self _ _ (fun c hc => hsp c (List.mem_reverse.mp hc)),
      List.reverse_reverse]
    simp only [if_neg (show ¬(45 : Nat) = 43 by omega), if_pos rfl,
      parsePyNat_natToDecimal]
    show some (-(↑k.natAbs : Int)) = some k
    simp only [Option.some.injEq]
    omega
  · rw [intToDecimal, if_neg hneg, pyIntParse_natToDecimal]
    simp only [Option.some.injEq]
    omega

/-! ## Base64 roundtrip -/

theorem b64charDec_b64char : ∀ n < 64, b64charDec (b64char n) = some n := by decide

theorem b64_roundtrip : ∀ l : Bytes, IsBytes l → b64decode (b64encode l) = some l := by
  intro l
  induction l using b64encode.induct with
  | case1 a b c rest ih =>
    intro h
    have ha : a < 256 := h a (by simp)
    have hb : b < 256 := h b (by simp)
    have hc : c < 256 := h c (by simp)
    have hrest : IsBytes rest := fun x hx => h x (by simp [hx])
    simp only [b64encode]
    set w := a * 65536 + b * 256 + c with hw
    have h1 : b64charDec (b64char (w / 262144)) = some (w / 262144) :=
      b64charDec_b64char _ (by omega)
    have h2 : b64charDec (b64char (w / 4096 % 64)) = some (w / 4096 % 64) :=
      b64charDec_b64char _ (by omega)
    have h3 : b64charDec (b64char (w / 64 % 64)) = some (w / 64 % 64) :=
      b64charDec_b64char _ (by omega)
    have h4 : b64charDec (b64char (w % 64)) = some (w % 64) :=
      b64charDec_b64char _ (by omega)
    rw [b64decode.eq_def]
    simp only [h1, h2, h3, h4, b64char_ne_pad, if_false, ih hrest, Option.some.injEq,
      List.cons.injEq, ite_false]
    exact ⟨by omega, by omega, by omega, trivial⟩
  | case2 a b =>
    intro h
    have ha : a < 256 := h a (by simp)
    have hb : b < 256 := h b (by simp)
    simp only [b64encode]
    set w := a * 65536 + b * 256 with hw
    have h1 : b64charDec (b64char (w / 262144)) = some (w / 262144) :=
      b64charDec_b64char _ (by omega)
    have h2 : b64charDec (b64char (w / 4096 % 64)) = some (w / 4096 % 64) :=
      b64charDec_b64char _ (by omega)
    have h3 : b64charDec (b64char (w / 64 % 64)) = some (w / 64 % 64) :=
      b64charDec_b64char _ (by omega)
    rw [b64decode.eq_def]
    simp only [h1, h2, h3, b64char_ne_pad, if_false, if_pos rfl, Option.some.injEq,
      List.cons.injEq, ite_false, ite_true]
    exact ⟨by omega, by omega, trivial⟩
  | case3 a =>
    intro h
    have ha : a < 256 := h a (by simp)
    simp only [b64encode]
    set w := a * 65536 with hw
    have h1 : b64charDec (b64char (w / 262144)) = some (w / 262144) :=
      b64charDec_b64char _ (by omega)
    have h2 : b64charDec (b64char (w / 4096 % 64)) = some (w / 4096 % 64) :=
      b64charDec_b64char _ (by omega)
    rw [b64decode.eq_def]
    simp only [h1, h2, if_pos rfl, Option.some.injEq, List.cons.injEq, ite_true, and_true]
    omega
  | case4 => intro h; rfl

/-! ## Signed-value wire-format lemmas -/

theorem intercalate_two (x : Nat) (a b : Bytes) :
    List.intercalate [x] [a, b] = a ++ x :: b := by
  simp [List.intercalate]

theorem intercalate_three (x : Nat) (a b c : Bytes) :
    List.intercalate [x] [a, b, c] = a ++ x :: (b ++ x :: c) := by
  simp [List.intercalate]

theorem intercalate_four (x : Nat) (a b c d : Bytes) :
    List.intercalate [x] [a, b, c, d] = a ++ x :: (b ++ x :: (c ++ x :: d)) := by
  simp [List.intercalate]

theorem intercalate_extend (x : Nat) (a b c d : Bytes) :
    List.intercalate [x] [List.intercalate [x] [a, b, c], d] =
      List.intercalate [x] [a, b, c, d] := by
  simp [List.intercalate]

theorem splitOn_three (v ts sig : Bytes) (hv : 124 ∉ v) (hts : 124 ∉ ts)
    (hsig : 124 ∉ sig) :
    (List.intercalate [pipe] [v, ts, sig]).splitOn pipe = [v, ts, sig] := by
  apply List.splitOn_intercalate
  · intro l hl
    simp only [List.mem_cons, List.not_mem_nil, or_false] at hl
    rcases hl with h | h | h <;> subst h <;> assumption
  · simp

theorem splitOn_four (v ts sig tail : Bytes) (hv : 124 ∉ v) (hts : 124 ∉ ts)
    (hsig : 124 ∉ sig) (htail : 124 ∉ tail) :
    (List.intercalate [pipe] [v, ts, sig, tail]).splitOn pipe = [v, ts, sig, tail] := by
  apply List.splitOn_intercalate
  · intro l hl
    simp only [List.mem_cons, List.not_mem_nil, or_false] at hl
    rcases hl with h | h | h | h <;> subst h <;> assumption
  · simp

/-- Decoding a well-formed three-part value under a single secret: the
signature check succeeds, so the outcome depends only on the age check. -/
theorem decode_single_parts (s name value : Bytes) (t td : Nat) (d : Int)
    (mv : Option Nat) (hv : IsBytes value) :
    decode_signed_value (.single s) name
        (List.intercalate [pipe]
          [b64encode value, natToDecimal t,
            create_signature_v1 s [name, b64encode value, natToDecimal t]]) d mv td =
      if (t : Int) < (td : Int) - d * 86400 then Except.ok none
      else Except.ok (some value) := by
  have hsplit := splitOn_three (b64encode value) (natToDecimal t)
    (create_signature_v1 s [name, b64encode value, natToDecimal t])
    (b64encode_no_pipe value) (natToDecimal_no_pipe t)
    (create_signature_v1_no_pipe s _)
  unfold decode_signed_value
  simp only [hsplit, List.length_cons, List.length_nil, lastPart, List.getD_cons_zero,
    List.getD_cons_succ]
  rw [if_neg (by omega), if_pos trivial, pyIntParse_natToDecimal, b64_roundtrip value hv]

/-- Decoding a four-part value under a dict secret whose final field does
not parse as an integer raises `ValueError`. -/
theorem decode_dict_tail_unparsable (entries : List (Int × Bytes))
    (name v ts sig tail : Bytes) (d : Int) (mv : Option Nat) (td : Nat)
    (hv : 124 ∉ v) (hts : 124 ∉ ts) (hsig : 124 ∉ sig) (htail : 124 ∉ tail)
    (hparse : pyIntParse tail = none) :
    decode_signed_value (.dict entries) name
        (List.intercalate [pipe] [v, ts, sig, tail]) d mv td =
      Except.error "ValueError: invalid literal for int()" := by
  have hsplit := splitOn_four v ts sig tail hv hts hsig htail
  unfold decode_signed_value
  simp only [hsplit, List.length_cons, List.length_nil, lastPart]
  rw [if_neg (by omega), if_neg (by omega), hparse]

/-- Decoding a four-part value under a dict secret whose final field parses
to a present key version compares the stored signature field against the
expected signature; a mismatch yields `None`. -/
theorem decode_dict_tail_mismatch (entries : List (Int × Bytes))
    (name v ts sig tail : Bytes) (d : Int) (mv : Option Nat) (td : Nat) (kv : Int)
    (s2 : Bytes) (hv : 124 ∉ v) (hts : 124 ∉ ts) (hsig : 124 ∉ sig) (htail : 124 ∉ tail)
    (hparse : pyIntParse tail = some kv) (hget : dictGet entries kv = some s2)
    (hne : create_signature_v1 s2 [name, v, ts] ≠ tail) :
    decode_signed_value (.dict entries) name
        (List.intercalate [pipe] [v, ts, sig, tail]) d mv td = Except.ok none := by
  have hsplit := splitOn_four v ts sig tail hv hts hsig htail
  unfold decode_signed_value
  simp only [hsplit, List.length_cons, List.length_nil, lastPart, List.getD_cons_zero,
    List.getD_cons_succ]
  rw [if_neg (by omega), if_neg (by omega)]
  simp only [hparse, hget, if_neg hne]

/-- `create_signed_value` at version 2 with a single secret and no key
version, written out as the three-part wire value. -/
theorem create_single_v2 (s name value : Bytes) (t : Nat) :
    create_signed_value (.single s) name value 2 t none =
      Except.ok (List.intercalate [pipe]
        [b64encode value, natToDecimal t,
          create_signature_v1 s [name, b64encode value, natToDecimal t]]) := rfl

/-- `create_signed_value` at version 1, written out as the three-part wire
value (identical bytes to the version-2 output without a key version). -/
theorem create_single_v1 (s name value : Bytes) (t : Nat) :
    create_signed_value (.single s) name value 1 t none =
      Except.ok (List.intercalate [pipe]
        [b64encode value, natToDecimal t,
          create_signature_v1 s [name, b64encode value, natToDecimal t]]) := rfl

/-- `create_signed_value` at version 2 with a single secret and an explicit
key version appends the key version as a fourth field. -/
theorem create_single_v2_kv (s name value : Bytes) (t : Nat) (k : Int) :
    create_signed_value (.single s) name value 2 t (some k) =
      Except.ok (List.intercalate [pipe]
        [b64encode value, natToDecimal t,
          create_signature_v1 s [name, b64encode value, natToDecimal t],
          intToDecimal k]) := by
  show Except.ok (List.intercalate [pipe]
      [List.intercalate [pipe] [b64encode value, natToDecimal t,
        create_signature_v1 s [name, b64encode value, natToDecimal t]],
       intToDecimal k]) = _
  rw [intercalate_extend]

/-- `create_signed_value` at version 2 with a dict secret resolves the key
version (the maximum key when none is supplied), signs with that key's
secret, and appends the key version as a fourth field. -/
theorem create_dict_v2 (entries : List (Int × Bytes)) (name value : Bytes) (t : Nat)
    (k : Int) (sk : Bytes) (hmax : maxKey entries = some k)
    (hget : dictGet entries k = some sk) :
    create_signed_value (.dict entries) name value 2 t none =
      Except.ok (List.intercalate [pipe]
        [b64encode value, natToDecimal t,
          create_signature_v1 sk [name, b64encode value, natToDecimal t],
          intToDecimal k]) := by
  unfold create_signed_value
  simp only [hmax, hget]
  rw [if_neg (by omega), if_pos trivial, intercalate_extend]

theorem except_bind_ok {α β : Type} (a : α) (f : α → Except String β) :
    (Except.ok a).bind f = f a := rfl

/-! ## C1 -/

/-- C1: for every cookie name, byte-string value and single (non-dict)
secret, decoding the output of `create_signed_value` with
`decode_signed_value` under the same clock and the default
`max_age_days = 31` returns exactly the original value. -/
theorem signed_value_roundtrip (secret name value : Bytes) (clock : Nat)
    (hv : IsBytes value) :
    (create_signed_value (.single secret) name value DEFAULT_SIGNED_VALUE_VERSION
          clock none).bind
        (fun out => decode_signed_value (.single secret) name out 31 none clock) =
      Except.ok (some value) := by
  rw [show DEFAULT_SIGNED_VALUE_VERSION = 2 from rfl, create_single_v2]
  show decode_signed_value (.single secret) name _ 31 none clock = _
  rw [decode_single_parts secret name value clock clock 31 none hv, if_neg (by omega)]

/-- Witness for C1 at secret `s`, name `n`, value `bob`, clock `0`. -/
theorem signed_value_roundtrip_witness :
    IsBytes [98, 111, 98] ∧
      (create_signed_value (.single [115]) [110] [98, 111, 98]
            DEFAULT_SIGNED_VALUE_VERSION 0 none).bind
          (fun out => decode_signed_value (.single [115]) [110] out 31 none 0) =
        Except.ok (some [98, 111, 98]) :=
  ⟨by decide, signed_value_roundtrip [115] [110] [98, 111, 98] 0 (by decide)⟩

/-! ## C5 -/

/-- C5 (amended): `decode_signed_value` returns `None` whenever the
embedded timestamp is older than `max_age_days` before the decoding
clock; the claimed `min_version` rejection does not exist in the code. -/
theorem signed_value_expiry (secret name value : Bytes) (t td : Nat) (d : Int)
    (mv : Option Nat) (hv : IsBytes value)
    (hexp : (t : Int) < (td : Int) - d * 86400) :
    (create_signed_value (.single secret) name value 2 t none).bind
        (fun out => decode_signed_value (.single secret) name out d mv td) =
      Except.ok none := by
  rw [create_single_v2]
  show decode_signed_value (.single secret) name _ d mv td = _
  rw [decode_single_parts secret name value t td d mv hv, if_pos hexp]

/-- Witness for C5: created at clock 0, decoded with `max_age_days = 1`
two days later. -/
theorem signed_value_expiry_witness :
    IsBytes [98, 111, 98] ∧ ((0 : Int) < (172800 : Int) - 1 * 86400) ∧
      (create_signed_value (.single [115]) [110] [98, 111, 98] 2 0 none).bind
          (fun out => decode_signed_value (.single [115]) [110] out 1 none 172800) =
        Except.ok none :=
  ⟨by decide, by decide,
    signed_value_expiry [115] [110] [98, 111, 98] 0 172800 1 none (by decide) (by decide)⟩

/-- C5 counterexample: a version-1 value decoded with `min_version = 2`
still decodes successfully at the same clock; the source never reads
`min_version` after defaulting it. -/
theorem decode_ignores_min_version :
    (create_signed_value (.single [115]) [110] [98, 111, 98] 1 0 none).bind
        (fun out => decode_signed_value (.single [115]) [110] out 31 (some 2) 0) =
      Except.ok (some [98, 111, 98]) := by
  rw [create_single_v1, except_bind_ok]
  rw [decode_single_parts [115] [110] [98, 111, 98] 0 0 31 (some 2) (by decide),
    if_neg (by decide)]

/-! ## C2 -/

/-- C2: verification with a dict secret never succeeds: the dict branch of
`decode_signed_value` compares the expected hex signature against the
final key-version field (`parts[-1]`).  A value signed and decoded under
the same one-entry dict decodes to `None` instead of the original value. -/
theorem dict_roundtrip_fails :
    (create_signed_value (.dict [(1, [115])]) [110] [98, 111, 98] 2 0 none).bind
        (fun out => decode_signed_value (.dict [(1, [115])]) [110] out 31 none 0) =
      Except.ok none := by
  rw [create_dict_v2 [(1, [115])] [110] [98, 111, 98] 0 1 [115] rfl rfl,
    except_bind_ok]
  refine decode_dict_tail_mismatch [(1, [115])] [110] _ _ _ _ 31 none 0 1 [115]
    (b64encode_no_pipe _) (natToDecimal_no_pipe 0) (create_signature_v1_no_pipe _ _)
    (intToDecimal_no_pipe 1) (pyIntParse_intToDecimal 1) rfl ?_
  intro heq
  have h40 := create_signature_v1_length [115]
    [[110], b64encode [98, 111, 98], natToDecimal 0]
  rw [heq] at h40
  exact absurd h40 (by decide)

/-! ## C6 -/

/-- C6: flipping a single bit (bit 6 of the final key-version byte) in the
output of `create_signed_value` under a dict secret makes
`decode_signed_value` raise `ValueError` from `int(parts[-1])` instead of
returning `None`. -/
theorem decode_flipped_bit_raises :
    (create_signed_value (.dict [(1, [115])]) [110] [98, 111, 98] 2 0 none).bind
        (fun out => decode_signed_value (.dict [(1, [115])]) [110]
          (out.dropLast ++ [out.getLastD 0 ^^^ 64]) 31 none 0) =
      Except.error "ValueError: invalid literal for int()" := by
  rw [create_dict_v2 [(1, [115])] [110] [98, 111, 98] 0 1 [115] rfl rfl,
    except_bind_ok]
  have h1 : intToDecimal 1 = [49] := by decide
  have h2 : (49 : Nat) ^^^ 64 = 113 := by decide
  have hout : List.intercalate [pipe]
      [b64encode [98, 111, 98], natToDecimal 0,
        create_signature_v1 [115] [[110], b64encode [98, 111, 98], natToDecimal 0],
        intToDecimal 1] =
      (b64encode [98, 111, 98] ++ pipe :: (natToDecimal 0 ++ pipe ::
        (create_signature_v1 [115] [[110], b64encode [98, 111, 98], natToDecimal 0] ++
          [pipe]))) ++ [49] := by
    rw [intercalate_four, h1]
    simp
  rw [hout, List.dropLast_concat, List.getLastD_concat, h2]
  have hmod : (b64encode [98, 111, 98] ++ pipe :: (natToDecimal 0 ++ pipe ::
      (create_signature_v1 [115] [[110], b64encode [98, 111, 98], natToDecimal 0] ++
        [pipe]))) ++ [113] =
      List.intercalate [pipe]
        [b64encode [98, 111, 98], natToDecimal 0,
          create_signature_v1 [115] [[110], b64encode [98, 111, 98], natToDecimal 0],
          [113]] := by
    rw [intercalate_four]
    simp
  rw [hmod]
  exact decode_dict_tail_unparsable [(1, [115])] [110] _ _ _ [113] 31 none 0
    (b64encode_no_pipe _) (natToDecimal_no_pipe 0) (create_signature_v1_no_pipe _ _)
    (by decide) (by decide)

/-! ## C10 -/

theorem gskv_four_parts (v ts sig tail : Bytes) (hv : 124 ∉ v) (hts : 124 ∉ ts)
    (hsig : 124 ∉ sig) (htail : 124 ∉ tail) :
    get_signature_key_version (List.intercalate [pipe] [v, ts, sig, tail]) =
      pyIntParse tail := by
  unfold get_signature_key_version
  simp only [splitOn_four v ts sig tail hv hts hsig htail, List.length_cons,
    List.length_nil, List.getD_cons_succ, List.getD_cons_zero]
  rw [if_neg (by omega), if_pos (by omega)]

theorem gskv_three_parts (v ts sig : Bytes) (hv : 124 ∉ v) (hts : 124 ∉ ts)
    (hsig : 124 ∉ sig) :
    get_signature_key_version (List.intercalate [pipe] [v, ts, sig]) = none := by
  unfold get_signature_key_version
  simp only [splitOn_three v ts sig hv hts hsig, List.length_cons, List.length_nil]
  rw [if_neg (by omega), if_neg (by omega)]

/-- C10: `get_signature_key_version` recovers the key version of values
created with an explicit key version or a dict secret; it returns `None`
on any value with at most three pipe-separated fields (hence on all
version-1 outputs), and it returns `None` instead of raising when the
fourth field is not an integer literal. -/
theorem get_signature_key_version_spec (s name value sk w : Bytes) (t : Nat) (k : Int)
    (entries : List (Int × Bytes)) (hmax : maxKey entries = some k)
    (hget : dictGet entries k = some sk) (hshort : (w.splitOn pipe).length ≤ 3) :
    (create_signed_value (.single s) name value 2 t (some k)).map
        get_signature_key_version = Except.ok (some k)
    ∧ (create_signed_value (.dict entries) name value 2 t none).map
        get_signature_key_version = Except.ok (some k)
    ∧ (create_signed_value (.single s) name value 1 t none).map
        get_signature_key_version = Except.ok none
    ∧ get_signature_key_version w = none
    ∧ (∀ w2 : Bytes, 3 < (w2.splitOn pipe).length →
        pyIntParse ((w2.splitOn pipe).getD 3 []) = none →
        get_signature_key_version w2 = none) := by
  refine ⟨?_, ?_, ?_, ?_, ?_⟩
  · rw [create_single_v2_kv]
    show Except.ok (get_signature_key_version _) = _
    rw [gskv_four_parts _ _ _ _ (b64encode_no_pipe _) (natToDecimal_no_pipe t)
      (create_signature_v1_no_pipe _ _) (intToDecimal_no_pipe k),
      pyIntParse_intToDecimal]
  · rw [create_dict_v2 entries name value t k sk hmax hget]
    show Except.ok (get_signature_key_version _) = _
    rw [gskv_four_parts _ _ _ _ (b64encode_no_pipe _) (natToDecimal_no_pipe t)
      (create_signature_v1_no_pipe _ _) (intToDecimal_no_pipe k),
      pyIntParse_intToDecimal]
  · rw [create_single_v1]
    show Except.ok (get_signature_key_version _) = _
    rw [gskv_three_parts _ _ _ (b64encode_no_pipe _) (natToDecimal_no_pipe t)
      (create_signature_v1_no_pipe _ _)]
  · unfold get_signature_key_version
    by_cases h : (w.splitOn pipe).length < 3
    · rw [if_pos h]
    · rw [if_neg h, if_neg (by omega)]
  · intro w2 hlong hparse
    unfold get_signature_key_version
    rw [if_neg (by omega), if_pos hlong, hparse]

/-- Witness for C10 at concrete inputs, including the one-entry dict
`{5: s}` and the partless value `a`. -/
theorem get_signature_key_version_spec_witness :
    maxKey [((5 : Int), ([115] : Bytes))] = some 5 ∧
      dictGet [((5 : Int), ([115] : Bytes))] 5 = some [115] ∧
      (([97] : Bytes).splitOn pipe).length ≤ 3 ∧
      ((create_signed_value (.single [115]) [110] [98] 2 0 (some 5)).map
          get_signature_key_version = Except.ok (some 5)
        ∧ (create_signed_value (.dict [(5, [115])]) [110] [98] 2 0 none).map
            get_signature_key_version = Except.ok (some 5)
        ∧ (create_signed_value (.single [115]) [110] [98] 1 0 none).map
            get_signature_key_version = Except.ok none
        ∧ get_signature_key_version [97] = none
        ∧ (∀ w2 : Bytes, 3 < (w2.splitOn pipe).length →
            pyIntParse ((w2.splitOn pipe).getD 3 []) = none →
            get_signature_key_version w2 = none)) :=
  ⟨by decide, by decide, by decide,
    get_signature_key_version_spec [115] [110] [98] [115] [97] 0 5 [(5, [115])]
      (by decide) (by decide) (by decide)⟩

/-! ## C4 -/

/-- C4: body-framing determination raises `HTTPInputError` exactly when a
`Transfer-Encoding` header is present whose (stripped, lower-cased) value
differs from `chunked`; it returns true exactly when the headers specify
`Transfer-Encoding: chunked`, and false when the header is absent. -/
theorem is_transfer_encoding_chunked_spec (h : HTTPHeaders) :
    (h.getItem transferEncodingName = none →
      is_transfer_encoding_chunked h = Except.ok false)
    ∧ (∀ v, h.getItem transferEncodingName = some v →
        ((stripHTTPWhitespace v).map toLowerByte = chunkedBytes →
          is_transfer_encoding_chunked h = Except.ok true)
        ∧ ((stripHTTPWhitespace v).map toLowerByte ≠ chunkedBytes →
          is_transfer_encoding_chunked h =
            Except.error "HTTPInputError: unsupported Transfer-Encoding")) := by
  constructor
  · intro hn
    unfold is_transfer_encoding_chunked
    rw [hn]
  · intro v hv
    constructor
    · intro hc
      unfold is_transfer_encoding_chunked
      rw [hv]
      simp only [if_pos hc]
    · intro hc
      unfold is_transfer_encoding_chunked
      rw [hv]
      simp only [if_neg hc]

/-- Witness for C4: a ` Chunked` header is accepted, an absent header
reports false, and a `gzip` transfer encoding is a fatal input error. -/
theorem is_transfer_encoding_chunked_spec_witness :
    ((HTTPHeaders.empty.setItem transferEncodingName
          [32, 67, 104, 117, 110, 107, 101, 100]).getItem transferEncodingName =
        some [32, 67, 104, 117, 110, 107, 101, 100]) ∧
      is_transfer_encoding_chunked
          (HTTPHeaders.empty.setItem transferEncodingName
            [32, 67, 104, 117, 110, 107, 101, 100]) = Except.ok true ∧
      is_transfer_encoding_chunked HTTPHeaders.empty = Except.ok false ∧
      is_transfer_encoding_chunked
          (HTTPHeaders.empty.setItem transferEncodingName [103, 122, 105, 112]) =
        Except.error "HTTPInputError: unsupported Transfer-Encoding" :=
  ⟨by decide,
    ((is_transfer_encoding_chunked_spec
        (HTTPHeaders.empty.setItem transferEncodingName
          [32, 67, 104, 117, 110, 107, 101, 100])).2
      [32, 67, 104, 117, 110, 107, 101, 100] (by decide)).1 (by decide),
    (is_transfer_encoding_chunked_spec HTTPHeaders.empty).1 (by decide),
    ((is_transfer_encoding_chunked_spec
        (HTTPHeaders.empty.setItem transferEncodingName [103, 122, 105, 112])).2
      [103, 122, 105, 112] (by decide)).2 (by decide)⟩

/-! ## C7 -/

theorem startsWith47_pyReplaceAux (fuel : Nat) (rest : Bytes)
    (h : startsWith [47] rest = false) :
    startsWith [47] (pyReplaceAux [60, 47] [60, 92, 47] fuel rest) = false := by
  cases rest with
  | nil => cases fuel <;> rfl
  | cons rh rt =>
    have hrh : ¬(47 : Nat) = rh := by
      simp [startsWith] at h
      exact h
    cases fuel with
    | zero =>
      show startsWith [47] (rh :: rt) = false
      simp [startsWith, hrh]
    | succ f =>
      by_cases hs : startsWith [60, 47] (rh :: rt) = true
      · rw [pyReplaceAux, if_pos hs]
        simp [startsWith]
      · rw [pyReplaceAux, if_neg hs]
        simp [startsWith, hrh]

theorem pyReplaceAux_no_close_tag :
    ∀ fuel s, s.length ≤ fuel →
      containsSeq [60, 47] (pyReplaceAux [60, 47] [60, 92, 47] fuel s) = false := by
  intro fuel
  induction fuel with
  | zero =>
    intro s hs
    have hnil : s = [] := by
      cases s with
      | nil => rfl
      | cons c rest => simp at hs
    subst hnil
    rfl
  | succ f ih =>
    intro s hs
    cases s with
    | nil => rfl
    | cons c rest =>
      by_cases hstart : startsWith [60, 47] (c :: rest) = true
      · obtain ⟨hc60, rt, hrt⟩ :
            c = 60 ∧ ∃ rt, rest = 47 :: rt := by
          cases rest with
          | nil => simp [startsWith] at hstart
          | cons r0 rt =>
            simp [startsWith] at hstart
            exact ⟨hstart.1.symm, rt, by rw [← hstart.2]⟩
        subst hc60
        subst hrt
        rw [pyReplaceAux, if_pos hstart]
        show containsSeq [60, 47]
          (60 :: 92 :: 47 :: pyReplaceAux [60, 47] [60, 92, 47] f
            ((60 :: 47 :: rt).drop [60, 47].length)) = false
        have hdrop : (60 :: 47 :: rt).drop [60, 47].length = rt := rfl
        rw [hdrop]
        simp only [containsSeq, startsWith]
        rw [ih rt (by simp at hs; omega)]
        simp
      · rw [pyReplaceAux, if_neg hstart]
        show containsSeq [60, 47] (c :: pyReplaceAux [60, 47] [60, 92, 47] f rest) = false
        simp only [containsSeq]
        rw [ih rest (by simp at hs; omega), Bool.or_false]
        by_cases hc : c = 60
        · subst hc
          have h47 : startsWith [47] rest = false := by
            cases h47v : startsWith [47] rest with
            | false => rfl
            | true =>
              exfalso
              apply hstart
              simp [startsWith, h47v]
          have hres := startsWith47_pyReplaceAux f rest h47
          simp [startsWith, hres]
        · simp only [startsWith, Bool.and_eq_false_iff, decide_eq_false_iff_not]
          left
          exact fun heq => hc heq.symm

/-- C7: `RequestHandler.write` on a dict appends the JSON serialization
with every `</` replaced by `<\/` (a result free of any `</` run) to the
response buffer and sets `Content-Type: application/json`; a raw list is
refused with `TypeError`. -/
theorem write_spec (st : ResponseState) (d : List (Bytes × PyJson)) (xs : List PyJson) :
    RequestHandler.write st (.ofDict d) =
        Except.ok ⟨st.write_buffer ++
            [pyReplace (jsonDumps (.obj d)) [60, 47] [60, 92, 47]],
          st.headers.setItem contentTypeName applicationJson⟩
    ∧ containsSeq [60, 47] (json_encode (.obj d)) = false
    ∧ RequestHandler.write st (.ofList xs) =
        Except.error "TypeError: lists not accepted for security reasons" := by
  refine ⟨rfl, ?_, rfl⟩
  unfold json_encode pyReplace
  exact pyReplaceAux_no_close_tag _ _ (le_refl _)

/-! ## C3: ordered-dict laws -/

theorem odGet_odSet_self {β : Type} :
    ∀ (l : List (Bytes × β)) k v, odGet (odSet l k v) k = some v := by
  intro l k v
  induction l with
  | nil => simp [odSet, odGet]
  | cons p rest ih =>
    obtain ⟨k1, v1⟩ := p
    by_cases h : k1 = k
    · simp [odSet, odGet, h]
    · simp only [odSet, odGet, if_neg h]
      exact ih

theorem odGet_odSet_ne {β : Type} :
    ∀ (l : List (Bytes × β)) k k2 v, k2 ≠ k → odGet (odSet l k v) k2 = odGet l k2 := by
  intro l k k2 v hne
  induction l with
  | nil =>
    simp only [odSet, odGet]
    rw [if_neg (fun h => hne h.symm)]
  | cons p rest ih =>
    obtain ⟨k1, v1⟩ := p
    by_cases h : k1 = k
    · subst h
      simp only [odSet, if_pos rfl, odGet]
      rw [if_neg (fun h => hne h.symm), if_neg (fun h => hne h.symm)]
    · simp only [odSet, if_neg h, odGet]
      by_cases h2 : k1 = k2
      · rw [if_pos h2, if_pos h2]
      · rw [if_neg h2, if_neg h2]
        exact ih

theorem odGet_none_iff {β : Type} :
    ∀ (l : List (Bytes × β)) k, odGet l k = none ↔ k ∉ l.map Prod.fst := by
  intro l k
  induction l with
  | nil => simp [odGet]
  | cons p rest ih =>
    obtain ⟨k1, v1⟩ := p
    by_cases h : k1 = k
    · simp [odGet, h]
    · simp only [odGet, if_neg h, List.map_cons, List.mem_cons]
      rw [ih]
      constructor
      · intro hn hc
        rcases hc with hc | hc
        · exact h hc.symm
        · exact hn hc
      · intro hn
        exact fun hc => hn (Or.inr hc)

theorem odSet_keys {β : Type} :
    ∀ (l : List (Bytes × β)) k v, (odSet l k v).map Prod.fst =
      if k ∈ l.map Prod.fst then l.map Prod.fst else l.map Prod.fst ++ [k] := by
  intro l k v
  induction l with
  | nil => simp [odSet]
  | cons p rest ih =>
    obtain ⟨k1, v1⟩ := p
    by_cases h : k1 = k
    · subst h
      simp [odSet]
    · simp only [odSet, if_neg h, List.map_cons, ih, List.mem_cons]
      by_cases h2 : k ∈ rest.map Prod.fst
      · rw [if_pos h2, if_pos (Or.inr h2)]
      · rw [if_neg h2, if_neg (fun hc => by
          rcases hc with hc | hc
          · exact h hc.symm
          · exact h2 hc)]
        simp

/-! ## C3: header-name canonicalization -/

theorem toLowerByte_idem (b : Nat) : toLowerByte (toLowerByte b) = toLowerByte b := by
  unfold toLowerByte
  repeat' split
  all_goals omega

theorem toUpperByte_idem (b : Nat) : toUpperByte (toUpperByte b) = toUpperByte b := by
  unfold toUpperByte
  repeat' split
  all_goals omega

theorem toLowerByte_ne_45 (b : Nat) (h : b ≠ 45) : toLowerByte b ≠ 45 := by
  unfold toLowerByte
  split <;> omega

theorem toUpperByte_ne_45 (b : Nat) (h : b ≠ 45) : toUpperByte b ≠ 45 := by
  unfold toUpperByte
  split <;> omega

theorem capitalizeWord_idem (w : Bytes) :
    capitalizeWord (capitalizeWord w) = capitalizeWord w := by
  cases w with
  | nil => rfl
  | cons c rest =>
    simp only [capitalizeWord, toUpperByte_idem, List.map_map, List.cons.injEq, true_and]
    apply List.map_congr_left
    intro b hb
    exact toLowerByte_idem b

theorem capitalizeWord_no_45 (w : Bytes) (h : 45 ∉ w) : 45 ∉ capitalizeWord w := by
  cases w with
  | nil => simp [capitalizeWord]
  | cons c rest =>
    simp only [capitalizeWord, List.mem_cons, not_or]
    constructor
    · intro hc
      exact toUpperByte_ne_45 c (fun he => h (by simp [he])) hc.symm
    · intro hm
      simp only [List.mem_map] at hm
      obtain ⟨b, hb, hbe⟩ := hm
      exact toLowerByte_ne_45 b (fun he => h (by subst he; exact List.mem_cons_of_mem c hb)) hbe

theorem mem_splitOn_not_mem (x : Nat) :
    ∀ (l : Bytes) part, part ∈ l.splitOn x → x ∉ part := by
  intro l
  induction l with
  | nil =>
    intro part hp
    simp only [List.splitOn_nil, List.mem_cons, List.not_mem_nil, or_false] at hp
    subst hp
    simp
  | cons a t ih =>
    intro part hp
    simp only [List.splitOn] at hp ih
    rw [List.splitOnP_cons] at hp
    by_cases hax : (a == x) = true
    · rw [if_pos hax] at hp
      rcases List.mem_cons.mp hp with h | h
      · subst h; simp
      · exact ih part h
    · rw [if_neg hax] at hp
      have hne : t.splitOnP (· == x) ≠ [] := List.splitOnP_ne_nil _ t
      cases hsp : t.splitOnP (· == x) with
      | nil => exact absurd hsp hne
      | cons h0 t0 =>
        rw [hsp] at hp
        simp only [List.modifyHead, List.mem_cons] at hp
        rcases hp with h | h
        · subst h
          simp only [List.mem_cons, not_or]
          constructor
          · intro he
            exact hax (by simp [he])
          · exact ih h0 (by rw [hsp]; exact List.mem_cons_self h0 t0)
        · exact ih part (by rw [hsp]; exact List.mem_cons_of_mem h0 h)

theorem normalize_header_idem (n : Bytes) :
    normalize_header (normalize_header n) = normalize_header n := by
  unfold normalize_header
  have hsplit : (List.intercalate [45] ((n.splitOn 45).map capitalizeWord)).splitOn 45 =
      (n.splitOn 45).map capitalizeWord := by
    apply List.splitOn_intercalate
    · intro l hl
      simp only [List.mem_map] at hl
      obtain ⟨part, hpart, hle⟩ := hl
      subst hle
      exact capitalizeWord_no_45 part (mem_splitOn_not_mem 45 n part hpart)
    · simp only [ne_eq, List.map_eq_nil_iff]
      exact List.splitOnP_ne_nil _ n
  rw [hsplit, List.map_map]
  congr 1
  apply List.map_congr_left
  intro part hpart
  exact capitalizeWord_idem part

/-! ## C3: the headers invariant -/

theorem headersOfPairs_append (ps : List (Bytes × Bytes)) (p : Bytes × Bytes) :
    headersOfPairs (ps ++ [p]) = (headersOfPairs ps).add p.1 p.2 := by
  unfold headersOfPairs
  rw [List.foldl_append]
  rfl

theorem insKeys_append (names : List Bytes) (a : Bytes) :
    insKeys (names ++ [a]) =
      if a ∈ insKeys names then insKeys names else insKeys names ++ [a] := by
  unfold insKeys
  rw [List.foldl_append]
  rfl

theorem valuesFor_append (ps : List (Bytes × Bytes)) (p : Bytes × Bytes) (n : Bytes) :
    valuesFor (ps ++ [p]) n =
      valuesFor ps n ++ (if normalize_header p.1 = n then [p.2] else []) := by
  unfold valuesFor
  rw [List.filter_append, List.map_append]
  by_cases h : normalize_header p.1 = n
  · rw [if_pos h]
    simp [List.filter, h]
  · rw [if_neg h]
    simp [List.filter, h]

theorem intercalate_singleton (s : Nat) (b : Bytes) : List.intercalate [s] [b] = b := by
  simp [List.intercalate]

theorem intercalate_cons_cons (s : Nat) (x y : Bytes) (t : List Bytes) :
    List.intercalate [s] (x :: y :: t) = x ++ s :: List.intercalate [s] (y :: t) := by
  simp [List.intercalate]

theorem intercalate_comma_append :
    ∀ (l : List Bytes) (b : Bytes), l ≠ [] →
      List.intercalate [44] (l ++ [b]) = List.intercalate [44] l ++ 44 :: b := by
  intro l
  induction l with
  | nil => intro b h; exact absurd rfl h
  | cons x t ih =>
    intro b h
    cases t with
    | nil => rw [intercalate_singleton, List.singleton_append, intercalate_cons_cons,
        intercalate_singleton]
    | cons y t2 =>
      have h1 : (x :: y :: t2) ++ [b] = x :: ((y :: t2) ++ [b]) := by simp
      have h2 : (y :: t2) ++ [b] = y :: (t2 ++ [b]) := by simp
      rw [h1, h2, intercalate_cons_cons 44 x y (t2 ++ [b]), ← h2, ih b (by simp),
        intercalate_cons_cons 44 x y t2]
      simp

theorem match_nonempty_append (l : List Bytes) (x : Bytes) :
    (match l ++ [x] with
     | [] => (none : Option (List Bytes))
     | l2 => some l2) = some (l ++ [x]) := by
  cases l <;> rfl

theorem match_nonempty_append_join (l : List Bytes) (x : Bytes) :
    (match l ++ [x] with
     | [] => (none : Option Bytes)
     | l2 => some (List.intercalate [44] l2)) = some (List.intercalate [44] (l ++ [x])) := by
  cases l <;> rfl

theorem headers_state (ps : List (Bytes × Bytes)) :
    (∀ n, odGet (headersOfPairs ps).as_list n =
        (match valuesFor ps n with
         | [] => none
         | l => some l))
    ∧ (∀ n, odGet (headersOfPairs ps).joined n =
        (match valuesFor ps n with
         | [] => none
         | l => some (List.intercalate [44] l)))
    ∧ (headersOfPairs ps).joined.map Prod.fst =
        insKeys (ps.map (fun p => normalize_header p.1)) := by
  induction ps using List.reverseRecOn with
  | nil => exact ⟨fun n => rfl, fun n => rfl, rfl⟩
  | append_singleton ps p ih =>
    obtain ⟨hA, hJ, hK⟩ := ih
    obtain ⟨a, b⟩ := p
    rw [headersOfPairs_append]
    have hmapapp : (ps ++ [(a, b)]).map (fun p => normalize_header p.1) =
        ps.map (fun p => normalize_header p.1) ++ [normalize_header a] := by
      simp
    cases hpres : odGet (headersOfPairs ps).joined (normalize_header a) with
    | some cur =>
      cases hVn : valuesFor ps (normalize_header a) with
      | nil =>
        exfalso
        have hJn := hJ (normalize_header a)
        rw [hpres, hVn] at hJn
        exact absurd hJn (by simp)
      | cons v0 vt =>
        have hcur : cur = List.intercalate [44] (v0 :: vt) := by
          have hJn := hJ (normalize_header a)
          rw [hpres, hVn] at hJn
          simpa using hJn
        have hAn : odGet (headersOfPairs ps).as_list (normalize_header a) =
            some (v0 :: vt) := by
          have h2 := hA (normalize_header a)
          rw [hVn] at h2
          exact h2
        unfold HTTPHeaders.add
        simp only [hpres]
        refine ⟨?_, ?_, ?_⟩
        · intro n
          rw [valuesFor_append]
          by_cases hn : normalize_header a = n
          · subst hn
            rw [if_pos rfl, hVn]
            show odGet (odSet (headersOfPairs ps).as_list _ _) _ = _
            rw [odGet_odSet_self, hAn, match_nonempty_append]
            rfl
          · rw [if_neg hn, List.append_nil]
            show odGet (odSet (headersOfPairs ps).as_list _ _) _ = _
            rw [odGet_odSet_ne _ _ _ _ (fun h2 => hn h2.symm)]
            exact hA n
        · intro n
          rw [valuesFor_append]
          by_cases hn : normalize_header a = n
          · subst hn
            rw [if_pos rfl, hVn]
            show odGet (odSet (headersOfPairs ps).joined _ _) _ = _
            rw [odGet_odSet_self, hcur, match_nonempty_append_join,
              intercalate_comma_append (v0 :: vt) (a, b).2 (by simp)]
          · rw [if_neg hn, List.append_nil]
            show odGet (odSet (headersOfPairs ps).joined _ _) _ = _
            rw [odGet_odSet_ne _ _ _ _ (fun h2 => hn h2.symm)]
            exact hJ n
        · show (odSet (headersOfPairs ps).joined _ _).map Prod.fst = _
          rw [odSet_keys, hK, hmapapp, insKeys_append]
    | none =>
      have hVn : valuesFor ps (normalize_header a) = [] := by
        cases hVn : valuesFor ps (normalize_header a) with
        | nil => rfl
        | cons v0 vt =>
          exfalso
          have hJn := hJ (normalize_header a)
          rw [hpres, hVn] at hJn
          exact absurd hJn (by simp)
      unfold HTTPHeaders.add
      simp only [hpres]
      refine ⟨?_, ?_, ?_⟩
      · intro n
        rw [valuesFor_append]
        by_cases hn : normalize_header a = n
        · subst hn
          rw [if_pos rfl, hVn, List.nil_append]
          show odGet (odSet (headersOfPairs ps).as_list _ _) _ = _
          rw [odGet_odSet_self]
        · rw [if_neg hn, List.append_nil]
          show odGet (odSet (headersOfPairs ps).as_list _ _) _ = _
          rw [odGet_odSet_ne _ _ _ _ (fun h2 => hn h2.symm)]
          exact hA n
      · intro n
        rw [valuesFor_append]
        by_cases hn : normalize_header a = n
        · subst hn
          rw [if_pos rfl, hVn, List.nil_append]
          show odGet (odSet (headersOfPairs ps).joined _ _) _ = _
          rw [odGet_odSet_self]
          show some (a, b).2 = some (List.intercalate [44] [(a, b).2])
          rw [intercalate_singleton]
        · rw [if_neg hn, List.append_nil]
          show odGet (odSet (headersOfPairs ps).joined _ _) _ = _
          rw [odGet_odSet_ne _ _ _ _ (fun h2 => hn h2.symm)]
          exact hJ n
      · show (odSet (headersOfPairs ps).joined _ _).map Prod.fst = _
        rw [odSet_keys, hK, hmapapp, insKeys_append]

theorem toUpperByte_congr (c1 c2 : Nat) (h : toLowerByte c1 = toLowerByte c2) :
    toUpperByte c1 = toUpperByte c2 := by
  unfold toLowerByte at h
  unfold toUpperByte
  split at h <;> split at h <;> split <;> split <;> omega

theorem capitalizeWord_congr (w1 w2 : Bytes) (h : w1.map toLowerByte = w2.map toLowerByte) :
    capitalizeWord w1 = capitalizeWord w2 := by
  cases w1 with
  | nil =>
    cases w2 with
    | nil => rfl
    | cons c r => simp at h
  | cons c1 r1 =>
    cases w2 with
    | nil => simp at h
    | cons c2 r2 =>
      simp only [List.map_cons, List.cons.injEq] at h
      simp only [capitalizeWord, List.cons.injEq]
      exact ⟨toUpperByte_congr c1 c2 h.1, h.2⟩

theorem toLowerByte_eq_45 (c : Nat) (h : toLowerByte c = 45) : c = 45 := by
  unfold toLowerByte at h
  split at h <;> omega

theorem splitOn_toLower_congr :
    ∀ (m n : Bytes), m.map toLowerByte = n.map toLowerByte →
      List.Forall₂ (fun p q => p.map toLowerByte = q.map toLowerByte)
        (m.splitOn 45) (n.splitOn 45) := by
  intro m
  induction m with
  | nil =>
    intro n h
    cases n with
    | nil => exact List.Forall₂.cons rfl List.Forall₂.nil
    | cons c r => simp at h
  | cons c1 r1 ih =>
    intro n h
    cases n with
    | nil => simp at h
    | cons c2 r2 =>
      simp only [List.map_cons, List.cons.injEq] at h
      obtain ⟨hc, hr⟩ := h
      simp only [List.splitOn] at ih ⊢
      rw [List.splitOnP_cons, List.splitOnP_cons]
      by_cases h45 : c1 = 45
      · have h45b : c2 = 45 := toLowerByte_eq_45 c2 (by rw [← hc, h45]; rfl)
        rw [if_pos (by simp [h45]), if_pos (by simp [h45b])]
        exact List.Forall₂.cons rfl (ih r2 hr)
      · have h45b : ¬c2 = 45 := fun he => h45 (toLowerByte_eq_45 c1 (by rw [hc, he]; rfl))
        rw [if_neg (by simp [h45]), if_neg (by simp [h45b])]
        have hrel := ih r2 hr
        cases hs1 : r1.splitOnP (fun b => b == 45) with
        | nil => exact absurd hs1 (List.splitOnP_ne_nil _ r1)
        | cons p1 t1 =>
          cases hs2 : r2.splitOnP (fun b => b == 45) with
          | nil => exact absurd hs2 (List.splitOnP_ne_nil _ r2)
          | cons p2 t2 =>
            rw [hs1, hs2] at hrel
            cases hrel with
            | cons hhead htail =>
              simp only [List.modifyHead]
              exact List.Forall₂.cons (by simp [hc, hhead]) htail

theorem map_capitalize_congr :
    ∀ (l1 l2 : List Bytes),
      List.Forall₂ (fun p q => p.map toLowerByte = q.map toLowerByte) l1 l2 →
      l1.map capitalizeWord = l2.map capitalizeWord := by
  intro l1 l2 h
  induction h with
  | nil => rfl
  | cons hpq htail ih => simp only [List.map_cons, ih, List.cons.injEq, and_true]
                         exact capitalizeWord_congr _ _ hpq

theorem normalize_header_congr (m n : Bytes)
    (h : m.map toLowerByte = n.map toLowerByte) :
    normalize_header m = normalize_header n := by
  unfold normalize_header
  rw [map_capitalize_congr _ _ (splitOn_toLower_congr m n h)]

/-- C3: for headers built by `add`-ing pairs in order, lookup under any
name equals lookup under its Http-Header-Case form; iteration yields the
canonical names in insertion order; `get_list` returns the occurrences for
the name in insertion order; and `get` returns those occurrences joined by
commas (`none` when the name is absent). -/
theorem headers_spec (ps : List (Bytes × Bytes)) (n : Bytes) :
    (headersOfPairs ps).getItem n = (headersOfPairs ps).getItem (normalize_header n)
    ∧ (∀ m : Bytes, m.map toLowerByte = n.map toLowerByte →
        (headersOfPairs ps).getItem m = (headersOfPairs ps).getItem n)
    ∧ (headersOfPairs ps).names = insKeys (ps.map (fun p => normalize_header p.1))
    ∧ (headersOfPairs ps).get_list n = valuesFor ps (normalize_header n)
    ∧ (headersOfPairs ps).getItem n =
        (match (headersOfPairs ps).get_list n with
         | [] => none
         | l => some (List.intercalate [44] l)) := by
  obtain ⟨hA, hJ, hK⟩ := headers_state ps
  refine ⟨?_, ?_, hK, ?_, ?_⟩
  · unfold HTTPHeaders.getItem
    rw [normalize_header_idem]
  · intro m hm
    unfold HTTPHeaders.getItem
    rw [normalize_header_congr m n hm]
  · unfold HTTPHeaders.get_list
    rw [hA (normalize_header n)]
    cases valuesFor ps (normalize_header n) <;> rfl
  · unfold HTTPHeaders.getItem HTTPHeaders.get_list
    rw [hJ (normalize_header n), hA (normalize_header n)]
    cases valuesFor ps (normalize_header n) <;> rfl

/-- Witness for C3: `coNtent-TYPE` is a case variant of `content-type` and
looks up the value stored under `Content-Type`. -/
theorem headers_spec_witness :
    (([99, 111, 78, 116, 101, 110, 116, 45, 84, 89, 80, 69] : Bytes).map toLowerByte =
        ([99, 111, 110, 116, 101, 110, 116, 45, 116, 121, 112, 101] : Bytes).map
          toLowerByte) ∧
      (headersOfPairs [([67, 111, 110, 116, 101, 110, 116, 45, 84, 121, 112, 101],
            [104, 105])]).getItem
          [99, 111, 78, 116, 101, 110, 116, 45, 84, 89, 80, 69] =
        (headersOfPairs [([67, 111, 110, 116, 101, 110, 116, 45, 84, 121, 112, 101],
            [104, 105])]).getItem
          [99, 111, 110, 116, 101, 110, 116, 45, 116, 121, 112, 101] :=
  ⟨by decide,
    (headers_spec [([67, 111, 110, 116, 101, 110, 116, 45, 84, 121, 112, 101], [104, 105])]
        [99, 111, 110, 116, 101, 110, 116, 45, 116, 121, 112, 101]).2.1
      [99, 111, 78, 116, 101, 110, 116, 45, 84, 89, 80, 69] (by decide)⟩

end Tornado
